import Mathlib

/-!
# Verification of the client-side persistence and telemetry layer

Shallow embedding, in Lean 4, of the search-history store
(`src/hooks/useSearchHistory.ts`), the favorites store
(`src/hooks/useFavorites.ts`), the performance-telemetry aggregator
(`src/hooks/usePerformanceMonitor.ts`) and the formatting utilities
(`src/lib/utils.ts`) of the repository, together with proofs of the
documented invariants of those components.

JavaScript strings are modelled as lists of characters (`JStr`); JavaScript
numbers that hold integral values (timestamps, chain ids, counters) are
modelled as `ℕ`, and fractional values (cache-hit rates, event values) as
`ℚ`.  Nondeterministic inputs of the code (`Date.now()`, `Math.random()`
based ids, `window.location.href`, `navigator.userAgent`) are passed to the
embedded operations as explicit parameters.
-/

namespace Web3

/-- JavaScript strings, modelled as sequences of characters. -/
abbrev JStr := List Char

/-- Embedding of `String.prototype.toLowerCase` on a single character:
ASCII uppercase letters (code points 65–90) are shifted by 32, everything
else is left unchanged. -/
def lowerChar (c : Char) : Char :=
  if 65 ≤ c.toNat ∧ c.toNat ≤ 90 then Char.ofNat (c.toNat + 32) else c

/-- Embedding of `String.prototype.toLowerCase`. -/
def toLowerStr (s : JStr) : JStr := s.map lowerChar

/-- Whitespace test used by the embedding of `String.prototype.trim`. -/
def isWS (c : Char) : Bool := c == ' ' || c == '\t' || c == '\n' || c == '\r'

/-- Embedding of `String.prototype.trim`: whitespace is removed from both
ends of the string. -/
def trimStr (s : JStr) : JStr := ((s.dropWhile isWS).reverse.dropWhile isWS).reverse

/-- The normalized form of a token address used by the search-history store:
`address.toLowerCase().trim()`. -/
def normalizeAddr (a : JStr) : JStr := trimStr (toLowerStr a)

theorem char_toNat_inj {a b : Char} (h : a.toNat = b.toNat) : a = b :=
  Char.eq_of_val_eq (UInt32.ext h)

theorem beq_char_eq_decide (c d : Char) : (c == d) = decide (c.toNat = d.toNat) := by
  by_cases h : c = d
  · subst h; simp
  · have hn : ¬ c.toNat = d.toNat := fun hn => h (char_toNat_inj hn)
    simp [h, hn]

theorem isWS_eq_decide (c : Char) :
    isWS c = (decide (c.toNat = 32) || decide (c.toNat = 9) ||
      decide (c.toNat = 10) || decide (c.toNat = 13)) := by
  rw [isWS, beq_char_eq_decide, beq_char_eq_decide, beq_char_eq_decide, beq_char_eq_decide]
  rfl

theorem lowerChar_lowerChar (c : Char) : lowerChar (lowerChar c) = lowerChar c := by
  unfold lowerChar
  split
  · rename_i h
    obtain ⟨h1, h2⟩ := h
    interval_cases h3 : c.toNat <;> decide
  · rfl

theorem isWS_lowerChar (c : Char) : isWS (lowerChar c) = isWS c := by
  rw [isWS_eq_decide, isWS_eq_decide, lowerChar]
  split
  · rename_i h
    obtain ⟨h1, h2⟩ := h
    interval_cases h3 : c.toNat <;> decide
  · rfl

theorem toLowerStr_toLowerStr (s : JStr) : toLowerStr (toLowerStr s) = toLowerStr s := by
  simp [toLowerStr, List.map_map, Function.comp_def, lowerChar_lowerChar]

theorem map_lowerChar_dropWhile (l : JStr) :
    List.map lowerChar (l.dropWhile isWS) = (List.map lowerChar l).dropWhile isWS := by
  simp only [List.dropWhile_map, Function.comp_def, isWS_lowerChar]

theorem toLowerStr_trimStr (s : JStr) : toLowerStr (trimStr s) = trimStr (toLowerStr s) := by
  simp only [trimStr, toLowerStr, List.map_reverse, map_lowerChar_dropWhile]

theorem toLowerStr_normalizeAddr (a : JStr) : toLowerStr (normalizeAddr a) = normalizeAddr a := by
  rw [normalizeAddr, toLowerStr_trimStr, toLowerStr_toLowerStr]

/-! ## Search-history store (`src/hooks/useSearchHistory.ts`) -/

/-- Optional cached token info carried by a history entry. -/
structure TokenInfo where
  symbol : Option JStr
  name : Option JStr
deriving DecidableEq

/-- `SearchHistoryItem` of `useSearchHistory.ts`. -/
structure SearchHistoryItem where
  id : JStr
  address : JStr
  timestamp : ℕ
  tokenInfo : Option TokenInfo
deriving DecidableEq

instance : Inhabited SearchHistoryItem := ⟨⟨[], [], 0, none⟩⟩

/-- The lookup key the store uses for an entry: `item.address.toLowerCase()`. -/
def histNorm (item : SearchHistoryItem) : JStr := toLowerStr item.address

/-- `MAX_HISTORY_SIZE` of `useSearchHistory.ts`. -/
def MAX_HISTORY_SIZE : ℕ := 20

/-- Embedding of `addToHistory`.  `now` stands for `Date.now()` and `freshId`
for the random id `Date.now()-Math.random()...` generated for a new entry.
The guard, the duplicate lookup, the move-to-front update, the prepend of a
new entry and the size cap follow the source line by line. -/
def addToHistory (now : ℕ) (freshId : JStr) (address : JStr) (tokenInfo : Option TokenInfo)
    (history : List SearchHistoryItem) : List SearchHistoryItem :=
  if address = [] ∨ trimStr address = [] then history
  else
    let normalizedAddress := trimStr (toLowerStr address)
    let newHistory :=
      match history.findIdx? (fun item => toLowerStr item.address == normalizedAddress) with
      | some existingIndex =>
        let existingItem := history.getD existingIndex default
        let updatedItem : SearchHistoryItem :=
          { existingItem with timestamp := now, tokenInfo := tokenInfo.or existingItem.tokenInfo }
        updatedItem :: history.eraseIdx existingIndex
      | none =>
        let newItem : SearchHistoryItem :=
          { id := freshId, address := normalizedAddress, timestamp := now, tokenInfo := tokenInfo }
        newItem :: history
    if MAX_HISTORY_SIZE < newHistory.length then newHistory.take MAX_HISTORY_SIZE else newHistory

/-- One `addToHistory` call: its `Date.now()` value, the id generated for a
new entry, and the two arguments. -/
structure HistOp where
  now : ℕ
  freshId : JStr
  address : JStr
  tokenInfo : Option TokenInfo
deriving DecidableEq

/-- One step of a call sequence against the history store. -/
def histStep (h : List SearchHistoryItem) (op : HistOp) : List SearchHistoryItem :=
  addToHistory op.now op.freshId op.address op.tokenInfo h

/-- A sequence of `addToHistory` calls applied to the hook's initial (empty)
history state. -/
def runHistory (ops : List HistOp) : List SearchHistoryItem :=
  ops.foldl histStep []

/-- Modelled from the spec: one touch in most-recently-touched order — a call
that passes the input guard moves its normalized address to the front. -/
def mtfStep (m : List JStr) (op : HistOp) : List JStr :=
  if op.address = [] ∨ trimStr op.address = [] then m
  else normalizeAddr op.address :: m.filter (fun y => y ≠ normalizeAddr op.address)

/-- Modelled from the spec: the normalized addresses in most-recently-touched
order (without any capacity cap) after a sequence of `addToHistory` calls. -/
def touchedOrder (ops : List HistOp) : List JStr :=
  ops.foldl mtfStep []

/-- Removing the (unique) entry for key `x` by index is the same as filtering
every entry with that key out, provided the keys are duplicate-free. -/
theorem eraseIdx_eq_filter_histNorm :
    ∀ (l : List SearchHistoryItem) (i : ℕ) (x : JStr), (l.map histNorm).Nodup →
      (∃ it, l.get? i = some it ∧ histNorm it = x) →
      l.eraseIdx i = l.filter (fun it => histNorm it ≠ x)
  | [], i, x, _, hit => by
    obtain ⟨it, hget, -⟩ := hit
    simp at hget
  | b :: tl, 0, x, hnd, hit => by
    obtain ⟨it, hget, hkey⟩ := hit
    simp only [List.get?_cons_zero, Option.some.injEq] at hget
    subst hget
    simp only [List.map_cons, List.nodup_cons] at hnd
    have hcond : ¬ ((fun it => decide (histNorm it ≠ x)) b = true) := by simp [hkey]
    have htl : tl.filter (fun y => decide (histNorm y ≠ x)) = tl := by
      rw [List.filter_eq_self]
      intro y hy
      have : histNorm y ≠ x := fun hxy => hnd.1 (hkey ▸ hxy ▸ List.mem_map_of_mem histNorm hy)
      simpa using this
    rw [List.eraseIdx_cons_zero, List.filter_cons, if_neg hcond, htl]
  | b :: tl, i + 1, x, hnd, hit => by
    obtain ⟨it, hget, hkey⟩ := hit
    simp only [List.get?_cons_succ] at hget
    simp only [List.map_cons, List.nodup_cons] at hnd
    have hmem : x ∈ tl.map histNorm := by
      have : it ∈ tl := List.get?_mem hget
      exact hkey ▸ List.mem_map_of_mem histNorm this
    have hcond : (fun it => decide (histNorm it ≠ x)) b = true := by
      simp only [decide_eq_true_eq]
      exact fun hbx => hnd.1 (hbx ▸ hmem)
    have hrec := eraseIdx_eq_filter_histNorm tl i x hnd.2 ⟨it, hget, hkey⟩
    rw [List.eraseIdx_cons_succ, List.filter_cons, if_pos hcond, hrec]

/-- The source caps `newHistory` only when it is longer than the maximum;
this is the same as always taking the first `n` entries. -/
theorem ite_take_eq_take (l : List SearchHistoryItem) (n : ℕ) :
    (if n < l.length then l.take n else l) = l.take n := by
  split
  · rfl
  · rename_i hn
    rw [List.take_of_length_le (by omega)]

theorem map_histNorm_filter (h : List SearchHistoryItem) (x : JStr) :
    (h.filter (fun it => decide (histNorm it ≠ x))).map histNorm =
      (h.map histNorm).filter (fun y => decide (y ≠ x)) := by
  induction h with
  | nil => rfl
  | cons b tl ih =>
    rw [List.filter_cons, List.map_cons, List.filter_cons]
    by_cases hb : histNorm b = x
    · rw [if_neg (by simp [hb]), if_neg (by simp [hb]), ih]
    · rw [if_pos (by simp [hb]), if_pos (by simp [hb]), List.map_cons, ih]

/-- What one guard-passing `addToHistory` call does to the multiset-free list
of normalized keys: the touched key moves to the front and the rest is capped. -/
theorem map_histNorm_addToHistory (now : ℕ) (fid a : JStr) (ti : Option TokenInfo)
    (h : List SearchHistoryItem) (hnd : (h.map histNorm).Nodup)
    (hg : ¬ (a = [] ∨ trimStr a = [])) :
    (addToHistory now fid a ti h).map histNorm =
      (normalizeAddr a :: (h.map histNorm).filter (fun y => y ≠ normalizeAddr a)).take
        MAX_HISTORY_SIZE := by
  simp only [addToHistory]
  rw [if_neg hg]
  cases hfind : h.findIdx? (fun item => toLowerStr item.address == trimStr (toLowerStr a)) with
  | none =>
    have hall := List.findIdx?_eq_none_iff.mp hfind
    have hfilter : (h.map histNorm).filter (fun y => decide (y ≠ normalizeAddr a)) =
        h.map histNorm := by
      rw [List.filter_eq_self]
      intro y hy
      obtain ⟨it, hitmem, rfl⟩ := List.mem_map.mp hy
      have := hall it hitmem
      simp only [histNorm, beq_eq_false_iff_ne, ne_eq] at this ⊢
      simpa [normalizeAddr] using this
    simp only [ite_take_eq_take, List.map_take, List.map_cons, hfilter]
    have hna : toLowerStr (trimStr (toLowerStr a)) = normalizeAddr a := toLowerStr_normalizeAddr a
    simp only [histNorm, hna]
  | some i =>
    obtain ⟨hlt, hp, -⟩ := List.findIdx?_eq_some_iff_getElem.mp hfind
    have hkey : histNorm h[i] = normalizeAddr a := by
      simpa [histNorm, normalizeAddr] using hp
    have hgetD : h.getD i default = h[i] := by
      simp [List.getD_eq_getElem?_getD, List.getElem?_eq_getElem hlt]
    have herase : h.eraseIdx i = h.filter (fun it => histNorm it ≠ normalizeAddr a) :=
      eraseIdx_eq_filter_histNorm h i (normalizeAddr a) hnd
        ⟨h[i], by simp [List.get?_eq_getElem?, List.getElem?_eq_getElem hlt], hkey⟩
    simp only [ite_take_eq_take, hgetD, herase]
    rw [List.map_take, List.map_cons, map_histNorm_filter]
    congr 2

/-- Capping a move-to-front list commutes with having capped it before the
touch: the capped store shows exactly the first `MAX` entries of the uncapped
most-recently-touched order. -/
theorem take_cons_filter_eq (m : List JStr) (x : JStr) (hm : m.Nodup) :
    ((x :: (m.take MAX_HISTORY_SIZE).filter (fun y => y ≠ x)).take MAX_HISTORY_SIZE) =
      ((x :: m.filter (fun y => y ≠ x)).take MAX_HISTORY_SIZE) := by
  have hcons : ∀ l : List JStr, (x :: l).take MAX_HISTORY_SIZE = x :: l.take 19 := fun l => rfl
  rw [hcons, hcons, show MAX_HISTORY_SIZE = 20 from rfl]
  congr 1
  have hsplit : m.filter (fun y => decide (y ≠ x)) =
      (m.take 20).filter (fun y => decide (y ≠ x)) ++
        (m.drop 20).filter (fun y => decide (y ≠ x)) := by
    rw [← List.filter_append, List.take_append_drop]
  rw [hsplit, List.take_append_eq_append_take]
  suffices hz : ((m.drop 20).filter (fun y => decide (y ≠ x))).take
      (19 - ((m.take 20).filter (fun y => decide (y ≠ x))).length) = [] by
    rw [hz, List.append_nil]
  by_cases hlen : m.length ≤ 20
  · rw [List.drop_eq_nil_of_le hlen]
    simp
  · push_neg at hlen
    have htk : (m.take 20).length = 20 := by
      rw [List.length_take]
      omega
    have hnd20 : (m.take 20).Nodup := hm.sublist (List.take_sublist 20 m)
    by_cases hx : x ∈ m.take 20
    · have hbne : (m.take 20).filter (fun y => decide (y ≠ x)) =
          (m.take 20).filter (fun y => y != x) := by
        refine List.filter_congr ?_
        intro y _
        by_cases h : y = x
        · subst h
          simp
        · simp [h, bne_iff_ne]
      have hlen19 : ((m.take 20).filter (fun y => decide (y ≠ x))).length = 19 := by
        rw [hbne, ← hnd20.erase_eq_filter x, List.length_erase_of_mem hx, htk]
      rw [hlen19]
      simp
    · have hfil : (m.take 20).filter (fun y => decide (y ≠ x)) = m.take 20 := by
        rw [List.filter_eq_self]
        intro y hy
        simp only [decide_eq_true_eq, ne_eq]
        intro hyx
        exact hx (hyx ▸ hy)
      rw [hfil, htk]
      simp

/-- The coupled induction: running the real store and the spec's
move-to-front list side by side from aligned states keeps them aligned. -/
theorem hist_fold_aligned (ops : List HistOp) :
    ∀ (h : List SearchHistoryItem) (m : List JStr),
      h.map histNorm = m.take MAX_HISTORY_SIZE → m.Nodup →
      (ops.foldl histStep h).map histNorm =
          (ops.foldl mtfStep m).take MAX_HISTORY_SIZE ∧
        (ops.foldl mtfStep m).Nodup := by
  induction ops with
  | nil => exact fun h m hmap hnd => ⟨hmap, hnd⟩
  | cons op rest ih =>
    intro h m hmap hnd
    rw [List.foldl_cons, List.foldl_cons]
    by_cases hg : op.address = [] ∨ trimStr op.address = []
    · have hh : histStep h op = h := by rw [histStep, addToHistory, if_pos hg]
      have hmm : mtfStep m op = m := by rw [mtfStep, if_pos hg]
      rw [hh, hmm]
      exact ih h m hmap hnd
    · have hndh : (h.map histNorm).Nodup := by
        rw [hmap]
        exact hnd.sublist (List.take_sublist _ m)
      have hstep : (histStep h op).map histNorm =
          (mtfStep m op).take MAX_HISTORY_SIZE := by
        rw [histStep, map_histNorm_addToHistory op.now op.freshId op.address op.tokenInfo h hndh hg,
          mtfStep, if_neg hg, hmap]
        exact take_cons_filter_eq m (normalizeAddr op.address) hnd
      have hndm : (mtfStep m op).Nodup := by
        rw [mtfStep, if_neg hg]
        refine List.Nodup.cons ?_ (hnd.filter _)
        intro hmem
        have := (List.mem_filter.mp hmem).2
        simp at this
      exact ih (histStep h op) (mtfStep m op) hstep hndm

/-- C1: for every sequence of `addToHistory` calls starting from the hook's
initial state, the history holds at most 20 entries, and its entries are
exactly the first 20 normalized addresses in most-recently-touched order
(the address touched last first, the oldest beyond the cap dropped). -/
theorem history_cap_mostRecentlyTouched (ops : List HistOp) :
    (runHistory ops).length ≤ MAX_HISTORY_SIZE ∧
      (runHistory ops).map histNorm = (touchedOrder ops).take MAX_HISTORY_SIZE := by
  have h := hist_fold_aligned ops [] [] rfl List.nodup_nil
  have h1 : (runHistory ops).map histNorm = (touchedOrder ops).take MAX_HISTORY_SIZE := h.1
  refine ⟨?_, h1⟩
  have hlen := congrArg List.length h1
  rw [List.length_map] at hlen
  rw [hlen]
  exact List.length_take_le _ _

/-- Re-adding an address that is already present updates that entry's
timestamp and token info, moves it to the front, and creates no duplicate:
the store keeps its size. -/
theorem addToHistory_readd (now : ℕ) (fid a : JStr) (ti : Option TokenInfo)
    (h : List SearchHistoryItem) (hnd : (h.map histNorm).Nodup)
    (hlen : h.length ≤ MAX_HISTORY_SIZE)
    (ha : a ≠ []) (hat : trimStr a ≠ [])
    (hpres : ∃ it ∈ h, histNorm it = normalizeAddr a) :
    (addToHistory now fid a ti h).length = h.length ∧
      ∃ old ∈ h, histNorm old = normalizeAddr a ∧
        addToHistory now fid a ti h =
          { old with timestamp := now, tokenInfo := ti.or old.tokenInfo } ::
            h.filter (fun it => histNorm it ≠ normalizeAddr a) := by
  have hg : ¬ (a = [] ∨ trimStr a = []) := by
    rintro (h1 | h2)
    · exact ha h1
    · exact hat h2
  cases hfind : h.findIdx? (fun item => toLowerStr item.address == trimStr (toLowerStr a)) with
  | none =>
    exfalso
    obtain ⟨it, hitmem, hitkey⟩ := hpres
    have := List.findIdx?_eq_none_iff.mp hfind it hitmem
    rw [beq_eq_false_iff_ne] at this
    exact this (by simpa [histNorm, normalizeAddr] using hitkey)
  | some i =>
    obtain ⟨hlt, hp, -⟩ := List.findIdx?_eq_some_iff_getElem.mp hfind
    have hkey : histNorm h[i] = normalizeAddr a := by
      simpa [histNorm, normalizeAddr] using hp
    have hgetD : h.getD i default = h[i] := by
      simp [List.getD_eq_getElem?_getD, List.getElem?_eq_getElem hlt]
    have herase : h.eraseIdx i = h.filter (fun it => histNorm it ≠ normalizeAddr a) :=
      eraseIdx_eq_filter_histNorm h i (normalizeAddr a) hnd
        ⟨h[i], by simp [List.get?_eq_getElem?, List.getElem?_eq_getElem hlt], hkey⟩
    have hlen1 : (h.eraseIdx i).length = h.length - 1 := List.length_eraseIdx_of_lt hlt
    have hlen20 : h.length ≤ 20 := hlen
    have heq : addToHistory now fid a ti h =
        { h[i] with timestamp := now, tokenInfo := ti.or h[i].tokenInfo } ::
          h.filter (fun it => histNorm it ≠ normalizeAddr a) := by
      simp only [addToHistory]
      rw [if_neg hg]
      simp only [hfind]
      rw [List.length_cons, hlen1, show MAX_HISTORY_SIZE = 20 from rfl,
        if_neg (by omega : ¬ 20 < h.length - 1 + 1), hgetD, herase]
    have hlenr : (addToHistory now fid a ti h).length = h.length := by
      rw [heq, List.length_cons, ← herase, hlen1]
      omega
    exact ⟨hlenr, h[i], List.getElem_mem hlt, hkey, heq⟩

/-- C5: the history store never holds two entries with the same normalized
address, and re-adding a present address keeps the size, updates the entry
and moves it to the front without duplicating it. -/
theorem history_unique_per_address :
    (∀ ops : List HistOp, ((runHistory ops).map histNorm).Nodup) ∧
      (∀ (now : ℕ) (fid a : JStr) (ti : Option TokenInfo) (h : List SearchHistoryItem),
        ((h.map histNorm).Nodup) → h.length ≤ MAX_HISTORY_SIZE →
        a ≠ [] → trimStr a ≠ [] →
        (∃ it ∈ h, histNorm it = normalizeAddr a) →
        (addToHistory now fid a ti h).length = h.length ∧
          ∃ old ∈ h, histNorm old = normalizeAddr a ∧
            addToHistory now fid a ti h =
              { old with timestamp := now, tokenInfo := ti.or old.tokenInfo } ::
                h.filter (fun it => histNorm it ≠ normalizeAddr a)) := by
  constructor
  · intro ops
    have h := hist_fold_aligned ops [] [] rfl List.nodup_nil
    have h1 : (runHistory ops).map histNorm = (touchedOrder ops).take MAX_HISTORY_SIZE := h.1
    rw [h1]
    exact (h.2.sublist (List.take_sublist _ _))
  · exact addToHistory_readd

/-- Witness: re-adding address `"A"` to a one-entry store holding `"a"`
keeps the size at one and updates the entry in place. -/
theorem history_unique_per_address_witness :
    (addToHistory 5 (['j']) (['A']) none [⟨['i'], ['a'], 0, none⟩]).length =
        ([⟨['i'], ['a'], 0, none⟩] : List SearchHistoryItem).length ∧
      ∃ old ∈ ([⟨['i'], ['a'], 0, none⟩] : List SearchHistoryItem),
        histNorm old = normalizeAddr (['A']) ∧
          addToHistory 5 (['j']) (['A']) none [⟨['i'], ['a'], 0, none⟩] =
            { old with timestamp := 5, tokenInfo := Option.or none old.tokenInfo } ::
              List.filter (fun it => histNorm it ≠ normalizeAddr (['A']))
                [⟨['i'], ['a'], 0, none⟩] :=
  history_unique_per_address.2 5 (['j']) (['A']) none [⟨['i'], ['a'], 0, none⟩]
    (by decide) (by decide) (by decide) (by decide) (by decide)

/-! ## Performance telemetry (`src/hooks/usePerformanceMonitor.ts`) -/

/-- The `type` field of a `PerformanceEvent`. -/
inductive PerfEventType
  | webVital
  | custom
  | error
deriving DecidableEq

/-- `PerformanceEvent` of `usePerformanceMonitor.ts`.  The numeric `value`
is modelled as a rational. -/
structure PerformanceEvent where
  type : PerfEventType
  name : JStr
  value : ℚ
  timestamp : ℕ
  url : JStr
  userAgent : JStr
deriving DecidableEq

/-- Embedding of `recordEvent`: push the event, then, if the buffer exceeds
100 entries, keep only the last 50 (`events.slice(-50)`). -/
def recordEventList (buf : List PerformanceEvent) (e : PerformanceEvent) :
    List PerformanceEvent :=
  let b := buf ++ [e]
  if 100 < b.length then b.drop (b.length - 50) else b

/-- A sequence of `recordEvent` calls applied to the initially empty event
buffer. -/
def runEvents (es : List PerformanceEvent) : List PerformanceEvent :=
  es.foldl recordEventList []

theorem recordEventList_length (buf : List PerformanceEvent) (e : PerformanceEvent) :
    (recordEventList buf e).length ≤ 100 := by
  rw [recordEventList]
  split
  · rename_i hgt
    rw [List.length_drop]
    omega
  · rename_i hle
    rw [List.length_append] at hle ⊢
    simp only [List.length_cons, List.length_nil] at hle ⊢
    omega

theorem recordEventList_no_trunc (buf : List PerformanceEvent) (e : PerformanceEvent)
    (h : buf.length ≤ 99) : recordEventList buf e = buf ++ [e] := by
  rw [recordEventList, if_neg]
  rw [List.length_append]
  simp only [List.length_cons, List.length_nil]
  omega

/-- The buffer is always a suffix of the full sequence of appended events. -/
theorem runEvents_suffix (es : List PerformanceEvent) : runEvents es <:+ es := by
  induction es using List.reverseRecOn with
  | nil => exact List.suffix_refl []
  | append_singleton l e ih =>
    have hfold : runEvents (l ++ [e]) = recordEventList (runEvents l) e := by
      rw [runEvents, runEvents, List.foldl_append, List.foldl_cons, List.foldl_nil]
    rw [hfold, recordEventList]
    obtain ⟨t, ht⟩ := ih
    have happ : runEvents l ++ [e] <:+ l ++ [e] :=
      ⟨t, by rw [← List.append_assoc, ht]⟩
    split
    · exact (List.drop_suffix _ _).trans happ
    · exact happ

theorem runEvents_length_le (es : List PerformanceEvent) : (runEvents es).length ≤ 100 := by
  induction es using List.reverseRecOn with
  | nil => simp [runEvents]
  | append_singleton l e ih =>
    have hfold : runEvents (l ++ [e]) = recordEventList (runEvents l) e := by
      rw [runEvents, runEvents, List.foldl_append, List.foldl_cons, List.foldl_nil]
    rw [hfold]
    exact recordEventList_length _ _

/-- C3: the event buffer never exceeds 100 entries, and the append that
makes it exceed 100 truncates it to exactly the 50 most recently appended
events in their original relative order. -/
theorem perf_buffer_truncation (es : List PerformanceEvent) :
    (runEvents es).length ≤ 100 ∧
      ∀ e : PerformanceEvent, (runEvents es).length = 100 →
        runEvents (es ++ [e]) = (es ++ [e]).drop (es.length - 49) ∧
          (runEvents (es ++ [e])).length = 50 := by
  refine ⟨runEvents_length_le es, ?_⟩
  intro e h100
  have hfold : runEvents (es ++ [e]) = recordEventList (runEvents es) e := by
    rw [runEvents, runEvents, List.foldl_append, List.foldl_cons, List.foldl_nil]
  have hsuf : runEvents es = es.drop (es.length - 100) := by
    have := List.suffix_iff_eq_drop.mp (runEvents_suffix es)
    rwa [h100] at this
  have heslen : 100 ≤ es.length := by
    have := List.length_drop (es.length - 100) es
    rw [← hsuf, h100] at this
    omega
  have htrunc : recordEventList (runEvents es) e =
      (runEvents es ++ [e]).drop 51 := by
    rw [recordEventList, if_pos]
    · congr 1
      rw [List.length_append, h100]
      simp
    · rw [List.length_append, h100]
      simp
  have hmain : runEvents (es ++ [e]) = (es ++ [e]).drop (es.length - 49) := by
    rw [hfold, htrunc, hsuf,
      List.drop_append_of_le_length (by rw [List.length_drop]; omega),
      List.drop_drop,
      List.drop_append_of_le_length (by omega : es.length - 49 ≤ es.length)]
    congr 2
    omega
  refine ⟨hmain, ?_⟩
  rw [hmain, List.length_drop, List.length_append]
  simp only [List.length_cons, List.length_nil]
  omega

/-- A concrete performance event used by witnesses. -/
def ev0 : PerformanceEvent := ⟨PerfEventType.custom, [], 0, 0, [], []⟩

set_option maxRecDepth 8192 in
/-- Witness: a buffer of exactly 100 events is truncated to the last 50 by
the 101st append. -/
theorem perf_buffer_truncation_witness :
    (runEvents (List.replicate 100 ev0)).length = 100 ∧
      runEvents (List.replicate 100 ev0 ++ [ev0]) =
        (List.replicate 100 ev0 ++ [ev0]).drop 51 ∧
      (runEvents (List.replicate 100 ev0 ++ [ev0])).length = 50 := by
  have h100 : (runEvents (List.replicate 100 ev0)).length = 100 := by rfl
  have h := (perf_buffer_truncation (List.replicate 100 ev0)).2 ev0 h100
  refine ⟨h100, ?_, h.2⟩
  have h51 : (List.replicate 100 ev0).length - 49 = 51 := by simp
  rw [← h51]
  exact h.1

/-- The running hits/total counter kept in `metricsRef.current.cacheStats`. -/
structure CacheStats where
  hits : ℕ
  total : ℕ
deriving DecidableEq

/-- The fields of `metricsRef.current` touched by `recordCacheHit`; both
start out absent. -/
structure PerfMetrics where
  cacheHitRate : Option ℚ
  cacheStats : Option CacheStats
deriving DecidableEq

/-- The monitor state: the event buffer plus the metrics object. -/
structure MonitorState where
  events : List PerformanceEvent
  metrics : PerfMetrics
deriving DecidableEq

def cacheHitRateName : JStr := "cache-hit-rate".toList

def cacheHitName : JStr := "cache-hit".toList

def cacheMissName : JStr := "cache-miss".toList

/-- Embedding of `recordCacheHit`: bump the hits/total counter, derive
`hits / total` (guarded to `0` when `total` is `0`), store the new rate, and
record a rate event followed by a discrete hit-or-miss event. -/
def recordCacheHit (now : ℕ) (url ua : JStr) (hit : Bool) (s : MonitorState) : MonitorState :=
  let stats := s.metrics.cacheStats.getD ⟨0, 0⟩
  let stats1 : CacheStats :=
    { hits := stats.hits + (if hit then 1 else 0), total := stats.total + 1 }
  let newRate : ℚ := if 0 < stats1.total then (stats1.hits : ℚ) / (stats1.total : ℚ) else 0
  { events :=
      recordEventList
        (recordEventList s.events ⟨PerfEventType.custom, cacheHitRateName, newRate, now, url, ua⟩)
        ⟨PerfEventType.custom, if hit then cacheHitName else cacheMissName, 1, now, url, ua⟩,
    metrics := { cacheHitRate := some newRate, cacheStats := some stats1 } }

/-- The monitor's initial state: empty buffer, no metrics recorded yet. -/
def initialMonitor : MonitorState := ⟨[], ⟨none, none⟩⟩

/-- The hit rate the monitor reports: `metricsRef.current.cacheHitRate || 0`. -/
def reportedRate (s : MonitorState) : ℚ := s.metrics.cacheHitRate.getD 0

/-- A sequence of `recordCacheHit` calls from the initial monitor state. -/
def runCacheHits (bs : List Bool) : MonitorState :=
  bs.foldl (fun s b => recordCacheHit 0 [] [] b s) initialMonitor

theorem runCacheHits_stats (bs : List Bool) :
    (runCacheHits bs).metrics.cacheStats.getD ⟨0, 0⟩ = ⟨bs.count true, bs.length⟩ ∧
      (runCacheHits bs).metrics.cacheHitRate =
        (if bs = [] then none else some ((bs.count true : ℚ) / (bs.length : ℚ))) := by
  induction bs using List.reverseRecOn with
  | nil => exact ⟨rfl, rfl⟩
  | append_singleton l b ih =>
    have hfold : runCacheHits (l ++ [b]) = recordCacheHit 0 [] [] b (runCacheHits l) := by
      rw [runCacheHits, runCacheHits, List.foldl_append, List.foldl_cons, List.foldl_nil]
    have hcount : (l ++ [b]).count true = l.count true + (if b then 1 else 0) := by
      rw [List.count_append]
      cases b <;> simp
    have hlen : (l ++ [b]).length = l.length + 1 := by
      rw [List.length_append]
      simp
    constructor
    · rw [hfold]
      simp only [recordCacheHit, ih.1, hcount, hlen, Option.getD_some]
    · rw [hfold]
      have hne : ¬ (l ++ [b] = []) := by simp
      simp only [recordCacheHit, ih.1, hcount, hlen, Option.getD_some]
      rw [if_neg hne, if_pos (Nat.succ_pos _)]

/-- When the buffer is short enough not to trigger truncation, one
`recordCacheHit` call appends exactly its two events at the end. -/
theorem recordCacheHit_events (now : ℕ) (url ua : JStr) (hit : Bool) (s : MonitorState)
    (h : s.events.length ≤ 98) :
    (recordCacheHit now url ua hit s).events =
      s.events ++
        [⟨PerfEventType.custom, cacheHitRateName,
            reportedRate (recordCacheHit now url ua hit s), now, url, ua⟩,
          ⟨PerfEventType.custom, if hit then cacheHitName else cacheMissName, 1, now, url, ua⟩] := by
  simp only [recordCacheHit, reportedRate, Option.getD_some]
  rw [recordEventList_no_trunc s.events _ (by omega)]
  rw [recordEventList_no_trunc _ _ (by rw [List.length_append]; simp; omega)]
  rw [List.append_assoc]
  rfl

/-- C4: after any sequence of recorded hit/miss booleans the reported cache
hit rate is (number of `true`) / (length), it is `0` before anything is
recorded, and every call appends a rate event followed by a discrete
hit-or-miss event to the buffer. -/
theorem cacheHitRate_correct (bs : List Bool) :
    reportedRate (runCacheHits bs) = (bs.count true : ℚ) / (bs.length : ℚ) ∧
      reportedRate (runCacheHits []) = 0 ∧
      ∀ (now : ℕ) (url ua : JStr) (hit : Bool) (s : MonitorState),
        s.events.length ≤ 98 →
        ∃ rateEv hmEv : PerformanceEvent,
          (recordCacheHit now url ua hit s).events = s.events ++ [rateEv, hmEv] ∧
            rateEv.name = cacheHitRateName ∧
            hmEv.name = (if hit then cacheHitName else cacheMissName) ∧
            hmEv.value = 1 := by
  refine ⟨?_, rfl, ?_⟩
  · have h := (runCacheHits_stats bs).2
    by_cases hbs : bs = []
    · subst hbs
      simp [reportedRate, runCacheHits, initialMonitor]
    · rw [reportedRate, h, if_neg hbs]
      rfl
  · intro now url ua hit s hlen
    exact ⟨_, _, recordCacheHit_events now url ua hit s hlen, rfl, rfl, rfl⟩

/-- Witness: three recorded hits/misses give rate 2/3, and one call on the
fresh monitor appends exactly the rate event and the hit event. -/
theorem cacheHitRate_correct_witness :
    reportedRate (runCacheHits [true, false, true]) = 2 / 3 ∧
      ∃ rateEv hmEv : PerformanceEvent,
        (recordCacheHit 0 [] [] true initialMonitor).events = [rateEv, hmEv] ∧
          rateEv.name = cacheHitRateName ∧
          hmEv.name = (if true then cacheHitName else cacheMissName) ∧
          hmEv.value = 1 := by
  have h := cacheHitRate_correct [true, false, true]
  constructor
  · rw [h.1, show [true, false, true].count true = 2 from rfl,
      show ([true, false, true] : List Bool).length = 3 from rfl]
    norm_num
  · obtain ⟨rateEv, hmEv, hev, h1, h2, h3⟩ :=
      h.2.2 0 [] [] true initialMonitor (by decide)
    exact ⟨rateEv, hmEv, by simpa using hev, h1, h2, h3⟩

/-! ## Decimal rendering of numbers (`Number.prototype.toString`,
`BigInt.prototype.toString`), shared by the favorites ids/keys and by
`formatTokenAmount`. -/

/-- Little-endian base-10 digits, computed with explicit fuel so that the
function is structurally recursive. -/
def natDigitsFuel : ℕ → ℕ → List ℕ
  | 0, _ => []
  | _ + 1, 0 => []
  | f + 1, n + 1 => (n + 1) % 10 :: natDigitsFuel f ((n + 1) / 10)

/-- Little-endian base-10 digits of `n` (empty for `0`). -/
def natDigits (n : ℕ) : List ℕ := natDigitsFuel n n

theorem natDigitsFuel_eq (n : ℕ) :
    ∀ f g, n ≤ f → n ≤ g → natDigitsFuel f n = natDigitsFuel g n := by
  induction n using Nat.strong_induction_on with
  | _ n ih =>
    intro f g hf hg
    cases n with
    | zero => cases f <;> cases g <;> rfl
    | succ m =>
      cases f with
      | zero => exact absurd hf (by omega)
      | succ f0 =>
        cases g with
        | zero => exact absurd hg (by omega)
        | succ g0 =>
          simp only [natDigitsFuel]
          congr 1
          have hdiv : (m + 1) / 10 < m + 1 := Nat.div_lt_self (by omega) (by omega)
          exact ih ((m + 1) / 10) hdiv f0 g0 (by omega) (by omega)

theorem natDigits_succ (n : ℕ) (h : n ≠ 0) :
    natDigits n = n % 10 :: natDigits (n / 10) := by
  cases n with
  | zero => exact absurd rfl h
  | succ m =>
    show natDigitsFuel (m + 1) (m + 1) = (m + 1) % 10 :: natDigitsFuel ((m + 1) / 10) ((m + 1) / 10)
    simp only [natDigitsFuel]
    congr 1
    have hdiv : (m + 1) / 10 < m + 1 := Nat.div_lt_self (by omega) (by omega)
    exact natDigitsFuel_eq ((m + 1) / 10) m ((m + 1) / 10) (by omega) le_rfl

/-- Value of a little-endian base-10 digit list. -/
def ofDigits10 : List ℕ → ℕ
  | [] => 0
  | d :: ds => d + 10 * ofDigits10 ds

theorem ofDigits10_natDigits (n : ℕ) : ofDigits10 (natDigits n) = n := by
  induction n using Nat.strong_induction_on with
  | _ n ih =>
    by_cases h : n = 0
    · subst h
      rfl
    · rw [natDigits_succ n h]
      simp only [ofDigits10]
      rw [ih (n / 10) (Nat.div_lt_self (Nat.pos_of_ne_zero h) (by omega))]
      omega

theorem natDigits_lt_ten (n : ℕ) : ∀ d ∈ natDigits n, d < 10 := by
  induction n using Nat.strong_induction_on with
  | _ n ih =>
    by_cases h : n = 0
    · subst h
      intro d hd
      simp [natDigits, natDigitsFuel] at hd
    · rw [natDigits_succ n h]
      intro d hd
      rcases List.mem_cons.mp hd with h1 | h2
      · subst h1
        exact Nat.mod_lt _ (by omega)
      · exact ih (n / 10) (Nat.div_lt_self (Nat.pos_of_ne_zero h) (by omega)) d h2

theorem natDigits_length_le (d : ℕ) : ∀ r, r < 10 ^ d → (natDigits r).length ≤ d := by
  induction d with
  | zero =>
    intro r hr
    have : r = 0 := by simpa using hr
    subst this
    simp [natDigits, natDigitsFuel]
  | succ d ih =>
    intro r hr
    by_cases h : r = 0
    · subst h
      simp [natDigits, natDigitsFuel]
    · rw [natDigits_succ r h]
      simp only [List.length_cons]
      have hlt : r / 10 < 10 ^ d := by
        rw [Nat.div_lt_iff_lt_mul (by omega)]
        calc r < 10 ^ (d + 1) := hr
        _ = 10 ^ d * 10 := by ring
      exact Nat.succ_le_succ (ih _ hlt)

/-- The character for one decimal digit. -/
def digitChar (d : ℕ) : Char := Char.ofNat (48 + d)

/-- Numeric value of a decimal digit character. -/
def digitVal (c : Char) : ℕ := c.toNat - 48

theorem digitVal_digitChar (d : ℕ) (hd : d < 10) : digitVal (digitChar d) = d := by
  interval_cases d <;> decide

theorem digitChar_ne_dot (d : ℕ) (hd : d < 10) : digitChar d ≠ '.' := by
  interval_cases d <;> decide

theorem digitChar_eq_zero_iff (d : ℕ) (hd : d < 10) : digitChar d = '0' ↔ d = 0 := by
  interval_cases d <;> decide

/-- Embedding of `toString()` on a nonnegative integral number: its decimal
digit string. -/
def natToJStr (n : ℕ) : JStr :=
  if n = 0 then ['0'] else (natDigits n).reverse.map digitChar

/-- Value of a big-endian decimal digit string. -/
def parseDigitsBE (s : JStr) : ℕ := s.foldl (fun acc c => 10 * acc + digitVal c) 0

theorem parseDigitsBE_append_singleton (s : JStr) (c : Char) :
    parseDigitsBE (s ++ [c]) = 10 * parseDigitsBE s + digitVal c := by
  rw [parseDigitsBE, parseDigitsBE, List.foldl_append, List.foldl_cons, List.foldl_nil]

theorem parseDigitsBE_rev_map (l : List ℕ) (hl : ∀ d ∈ l, d < 10) :
    parseDigitsBE ((l.map digitChar).reverse) = ofDigits10 l := by
  induction l with
  | nil => rfl
  | cons d ds ih =>
    rw [List.map_cons, List.reverse_cons, parseDigitsBE_append_singleton,
      ih (fun x hx => hl x (List.mem_cons_of_mem d hx)),
      digitVal_digitChar d (hl d (List.mem_cons_self d ds))]
    simp only [ofDigits10]
    omega

theorem parseDigitsBE_natToJStr (n : ℕ) : parseDigitsBE (natToJStr n) = n := by
  rw [natToJStr]
  by_cases h : n = 0
  · subst h
    rfl
  · rw [if_neg h, List.map_reverse, parseDigitsBE_rev_map (natDigits n) (natDigits_lt_ten n),
      ofDigits10_natDigits]

theorem dot_not_mem_natToJStr (n : ℕ) : '.' ∉ natToJStr n := by
  rw [natToJStr]
  by_cases h : n = 0
  · subst h
    decide
  · rw [if_neg h]
    intro hmem
    rw [List.map_reverse, List.mem_reverse] at hmem
    obtain ⟨d, hd, hdc⟩ := List.mem_map.mp hmem
    exact digitChar_ne_dot d (natDigits_lt_ten n d hd) hdc

/-! ## Favorites store (`src/hooks/useFavorites.ts`) -/

/-- `FavoriteToken` of `useFavorites.ts`. -/
structure FavoriteToken where
  id : JStr
  address : JStr
  chainId : ℕ
  symbol : Option JStr
  name : Option JStr
  decimals : Option ℕ
  tags : List JStr
  note : Option JStr
  addedAt : ℕ
  lastUpdated : ℕ
deriving DecidableEq

/-- The argument object of `addToFavorites`; `tags` is `none` when the
caller omitted it (the source then defaults it to `[]`). -/
structure TokenData where
  address : JStr
  chainId : ℕ
  symbol : Option JStr
  name : Option JStr
  decimals : Option ℕ
  tags : Option (List JStr)
  note : Option JStr
deriving DecidableEq

/-- Embedding of `isFavorite`: case-insensitive address match plus exact
chain-id match. -/
def isFavorite (address : JStr) (chainId : ℕ) (favorites : List FavoriteToken) : Bool :=
  favorites.any (fun fav => toLowerStr fav.address == toLowerStr address && fav.chainId == chainId)

/-- Embedding of `addToFavorites`.  `now` stands for `Date.now()`.  The
JavaScript guard `!address || !chainId` rejects the empty address and
chain id `0` (the falsy number).  Returns the source's boolean result
together with the new collection. -/
def addToFavorites (now : ℕ) (tokenData : TokenData) (favorites : List FavoriteToken) :
    Bool × List FavoriteToken :=
  if tokenData.address = [] ∨ tokenData.chainId = 0 then (false, favorites)
  else if isFavorite tokenData.address tokenData.chainId favorites then (false, favorites)
  else
    (true,
      { id := natToJStr tokenData.chainId ++ '-' :: toLowerStr tokenData.address ++
          '-' :: natToJStr now,
        address := toLowerStr tokenData.address,
        chainId := tokenData.chainId,
        symbol := tokenData.symbol,
        name := tokenData.name,
        decimals := tokenData.decimals,
        tags := tokenData.tags.getD [],
        note := tokenData.note,
        addedAt := now,
        lastUpdated := now } :: favorites)

/-- A token whose `chainId` is the falsy number `0`. -/
def zeroChainToken : TokenData := ⟨['a'], 0, none, none, none, none, none⟩

/-- Counterexample to C2 as stated: the pair (`"a"`, chain `0`) is not in
the empty collection, yet `addToFavorites` returns `false` and prepends
nothing, because the guard `!chainId` rejects chain id `0`. -/
theorem addToFavorites_claim_counterexample :
    isFavorite zeroChainToken.address zeroChainToken.chainId [] = false ∧
      addToFavorites 7 zeroChainToken [] = (false, []) ∧
      (addToFavorites 7 zeroChainToken []).1 ≠ true := by
  refine ⟨rfl, rfl, ?_⟩
  decide

/-- C2 (amended): a duplicate (address, chainId) pair is rejected and the
collection is unchanged; a new pair with a nonempty address and a nonzero
chain id is accepted and exactly one entry with the lowercased address is
prepended. -/
theorem addToFavorites_unique (now : ℕ) (td : TokenData) (favorites : List FavoriteToken) :
    (isFavorite td.address td.chainId favorites = true →
      addToFavorites now td favorites = (false, favorites)) ∧
      (td.address ≠ [] → td.chainId ≠ 0 →
        isFavorite td.address td.chainId favorites = false →
        (addToFavorites now td favorites).1 = true ∧
          ∃ f : FavoriteToken, (addToFavorites now td favorites).2 = f :: favorites ∧
            f.address = toLowerStr td.address ∧ f.chainId = td.chainId) := by
  constructor
  · intro hfav
    by_cases hg : td.address = [] ∨ td.chainId = 0
    · rw [addToFavorites, if_pos hg]
    · rw [addToFavorites, if_neg hg, if_pos hfav]
  · intro ha hc hfav
    rw [addToFavorites, if_neg (by tauto), if_neg (by rw [hfav]; exact Bool.false_ne_true)]
    exact ⟨rfl, _, rfl, rfl, rfl⟩

/-- A concrete favorite used by witnesses. -/
def favTok0 : FavoriteToken := ⟨['k'], ['a'], 1, none, none, none, [], none, 0, 0⟩

/-- Witness: adding (`"0xAbC"`, chain 1) to the empty collection succeeds
and prepends one lowercased entry. -/
theorem addToFavorites_unique_witness :
    (addToFavorites 3 ⟨('0' :: 'x' :: 'A' :: 'b' :: ['C']), 1, none, none, none, none, none⟩
        []).1 = true ∧
      ∃ f : FavoriteToken,
        (addToFavorites 3 ⟨('0' :: 'x' :: 'A' :: 'b' :: ['C']), 1, none, none, none, none,
            none⟩ []).2 = f :: [] ∧
          f.address = toLowerStr ('0' :: 'x' :: 'A' :: 'b' :: ['C']) ∧ f.chainId = 1 :=
  (addToFavorites_unique 3 ⟨('0' :: 'x' :: 'A' :: 'b' :: ['C']), 1, none, none, none, none,
      none⟩ []).2 (by decide) (by decide) (by decide)

/-- The deduplication key `importFavorites` builds for an entry:
`chainId-address.toLowerCase()`. -/
def favKey (fav : FavoriteToken) : JStr := natToJStr fav.chainId ++ '-' :: toLowerStr fav.address

/-- The import payload: `favoritesField` is `some` exactly when the payload
has an array `favorites` field (otherwise the source throws internally and
returns `false`). -/
structure ImportData where
  favoritesField : Option (List FavoriteToken)

/-- Embedding of `importFavorites`: reject payloads without an array
`favorites` field; in merge mode append the imported entries whose key is
not already present; otherwise replace the collection wholesale. -/
def importFavorites (data : ImportData) (merge : Bool) (favorites : List FavoriteToken) :
    Bool × List FavoriteToken :=
  match data.favoritesField with
  | none => (false, favorites)
  | some imported =>
    if merge then
      (true, favorites ++ imported.filter (fun fav => !((favorites.map favKey).contains (favKey fav))))
    else
      (true, imported)

/-- C6: a payload without an array favorites field is rejected and the
collection is unchanged; merge mode appends exactly the imported entries
whose (chainId, lowercased address) key is absent from the existing
collection; replace mode installs the imported array wholesale. -/
theorem importFavorites_spec (data : ImportData) (favorites : List FavoriteToken) :
    (data.favoritesField = none →
      ∀ merge : Bool, importFavorites data merge favorites = (false, favorites)) ∧
      (∀ imported : List FavoriteToken, data.favoritesField = some imported →
        importFavorites data true favorites =
            (true, favorites ++
              imported.filter (fun fav => ∀ g ∈ favorites, favKey g ≠ favKey fav)) ∧
          importFavorites data false favorites = (true, imported)) := by
  constructor
  · intro hnone merge
    rw [importFavorites, hnone]
  · intro imported hsome
    constructor
    · rw [importFavorites, hsome]
      simp only [if_pos]
      refine congrArg _ (congrArg _ (List.filter_congr ?_))
      intro fav _
      have hcont : (favorites.map favKey).contains (favKey fav) =
          decide (favKey fav ∈ favorites.map favKey) := List.elem_eq_mem _ _
      rw [hcont]
      by_cases hmem : favKey fav ∈ favorites.map favKey
      · obtain ⟨g, hg, hk⟩ := List.mem_map.mp hmem
        have hnall : ¬ (∀ g ∈ favorites, favKey g ≠ favKey fav) := fun hall => hall g hg hk
        simp [hmem, hnall]
      · have hall : ∀ g ∈ favorites, favKey g ≠ favKey fav := by
          intro g hg hk
          exact hmem (List.mem_map.mpr ⟨g, hg, hk⟩)
        rw [decide_eq_false hmem, decide_eq_true hall]
        rfl
    · rw [importFavorites, hsome]
      rfl

/-- Witness: a `none` payload is rejected; replace mode installs the
imported list. -/
theorem importFavorites_spec_witness :
    importFavorites ⟨none⟩ true [favTok0] = (false, [favTok0]) ∧
      importFavorites ⟨some [favTok0]⟩ false [] = (true, [favTok0]) :=
  ⟨(importFavorites_spec ⟨none⟩ [favTok0]).1 rfl true,
    ((importFavorites_spec ⟨some [favTok0]⟩ []).2 [favTok0] rfl).2⟩

/-! ## Loading the two stores from `localStorage` -/

/-- "More recently searched": the comparator `(a, b) => b.timestamp - a.timestamp`. -/
def moreRecentHist (a b : SearchHistoryItem) : Prop := b.timestamp ≤ a.timestamp

instance : DecidableRel moreRecentHist := fun _ _ => Nat.decLe _ _

instance : IsTotal SearchHistoryItem moreRecentHist :=
  ⟨fun a b => le_total b.timestamp a.timestamp⟩

instance : IsTrans SearchHistoryItem moreRecentHist :=
  ⟨fun _ _ _ h1 h2 => le_trans h2 h1⟩

/-- "More recently added": the comparator `(a, b) => b.addedAt - a.addedAt`. -/
def moreRecentFav (a b : FavoriteToken) : Prop := b.addedAt ≤ a.addedAt

instance : DecidableRel moreRecentFav := fun _ _ => Nat.decLe _ _

instance : IsTotal FavoriteToken moreRecentFav :=
  ⟨fun a b => le_total b.addedAt a.addedAt⟩

instance : IsTrans FavoriteToken moreRecentFav :=
  ⟨fun _ _ _ h1 h2 => le_trans h2 h1⟩

/-- Embedding of `loadHistory`.  The argument is the outcome at the
`JSON.parse` boundary: `none` when the storage key is absent (the initial
empty state is kept), `some none` when parsing (or sorting a non-array
value) throws and the `catch` resets the state, and `some (some items)`
when a list was parsed; a parsed list is sorted most-recent-first. -/
def loadHistory (stored : Option (Option (List SearchHistoryItem))) :
    List SearchHistoryItem :=
  match stored with
  | none => []
  | some none => []
  | some (some parsedHistory) => parsedHistory.insertionSort moreRecentHist

/-- Embedding of `loadFavorites`, with the same boundary as `loadHistory`;
a parsed list is sorted most-recently-added-first. -/
def loadFavorites (stored : Option (Option (List FavoriteToken))) :
    List FavoriteToken :=
  match stored with
  | none => []
  | some none => []
  | some (some parsedFavorites) => parsedFavorites.insertionSort moreRecentFav

/-- C7: both `load` operations are total (never throw): absence or a parse
failure yields the empty collection, and a successfully parsed collection
is returned as a permutation of itself sorted most-recent-first. -/
theorem load_total_sorted :
    (∀ stored, (stored = none ∨ stored = some none) → loadHistory stored = []) ∧
      (∀ items : List SearchHistoryItem,
        (loadHistory (some (some items))).Perm items ∧
          (loadHistory (some (some items))).Pairwise
            (fun a b => b.timestamp ≤ a.timestamp)) ∧
      (∀ stored, (stored = none ∨ stored = some none) → loadFavorites stored = []) ∧
      (∀ favs : List FavoriteToken,
        (loadFavorites (some (some favs))).Perm favs ∧
          (loadFavorites (some (some favs))).Pairwise
            (fun a b => b.addedAt ≤ a.addedAt)) := by
  refine ⟨?_, ?_, ?_, ?_⟩
  · rintro stored (rfl | rfl) <;> rfl
  · intro items
    exact ⟨List.perm_insertionSort moreRecentHist items,
      List.sorted_insertionSort moreRecentHist items⟩
  · rintro stored (rfl | rfl) <;> rfl
  · intro favs
    exact ⟨List.perm_insertionSort moreRecentFav favs,
      List.sorted_insertionSort moreRecentFav favs⟩

/-- Witness: absent and malformed storage load as empty; a two-element
parsed history comes back sorted newest first. -/
theorem load_total_sorted_witness :
    loadHistory none = [] ∧ loadHistory (some none) = [] ∧
      loadFavorites (some none) = [] ∧
      (loadHistory (some (some [⟨['i'], ['a'], 3, none⟩, ⟨['j'], ['b'], 7, none⟩]))).Pairwise
        (fun a b => b.timestamp ≤ a.timestamp) :=
  ⟨load_total_sorted.1 none (Or.inl rfl),
    load_total_sorted.1 (some none) (Or.inr rfl),
    load_total_sorted.2.2.1 (some none) (Or.inr rfl),
    (load_total_sorted.2.1 [⟨['i'], ['a'], 3, none⟩, ⟨['j'], ['b'], 7, none⟩]).2⟩

/-! ## Formatting utilities (`src/lib/utils.ts`) -/

/-- Embedding of `String.prototype.slice(-e)`: the last `e` characters,
except that `slice(-0)` is `slice(0)`, the whole string. -/
def jsSliceNeg (a : JStr) (e : ℕ) : JStr :=
  if e = 0 then a else a.drop (a.length - e)

/-- Embedding of `formatAddress`. -/
def formatAddress (address : JStr) (startLength endLength : ℕ) : JStr :=
  if address = [] then []
  else if address.length ≤ startLength + endLength then address
  else address.take startLength ++ '.' :: '.' :: '.' :: jsSliceNeg address endLength

/-- Counterexample to C9 as stated: with `endLength = 0` the tail
`slice(-0)` returns the whole address, not the last 0 characters, so the
result is not `first startLength` + `"..."` + `last endLength`. -/
theorem formatAddress_claim_counterexample :
    ('a' :: 'b' :: 'c' :: 'd' :: 'e' :: 'f' :: ['g']).length > 6 + 0 ∧
      formatAddress ('a' :: 'b' :: 'c' :: 'd' :: 'e' :: 'f' :: ['g']) 6 0 ≠
        ('a' :: 'b' :: 'c' :: 'd' :: 'e' :: 'f' :: ['g']).take 6 ++ '.' :: '.' :: '.' ::
          ('a' :: 'b' :: 'c' :: 'd' :: 'e' :: 'f' :: ['g']).drop (7 - 0) := by
  constructor
  · decide
  · decide

/-- C9 (amended): the empty address formats to the empty string; an address
no longer than `startLength + endLength` is returned unchanged; a longer
address with `endLength ≥ 1` becomes the first `startLength` characters,
`"..."`, and the last `endLength` characters. -/
theorem formatAddress_spec (a : JStr) (s e : ℕ) :
    (a = [] → formatAddress a s e = []) ∧
      (a.length ≤ s + e → formatAddress a s e = a) ∧
      (1 ≤ e → s + e < a.length →
        formatAddress a s e = a.take s ++ '.' :: '.' :: '.' :: a.drop (a.length - e)) := by
  refine ⟨?_, ?_, ?_⟩
  · intro ha
    rw [formatAddress, if_pos ha]
  · intro hle
    by_cases ha : a = []
    · rw [formatAddress, if_pos ha, ha]
    · rw [formatAddress, if_neg ha, if_pos hle]
  · intro he hlt
    have ha : ¬ a = [] := by
      intro hnil
      rw [hnil] at hlt
      simp at hlt
    rw [formatAddress, if_neg ha, if_neg (by omega), jsSliceNeg, if_neg (by omega)]

/-- Witness: a 14-character address with the default 6/4 split. -/
theorem formatAddress_spec_witness :
    formatAddress
        ('0' :: 'x' :: '1' :: '2' :: '3' :: '4' :: '5' :: '6' :: '7' :: '8' :: '9' :: 'a' ::
          'b' :: ['c']) 6 4 =
      ('0' :: 'x' :: '1' :: '2' :: '3' :: '4' :: '5' :: '6' :: '7' :: '8' :: '9' :: 'a' ::
          'b' :: ['c']).take 6 ++ '.' :: '.' :: '.' ::
        ('0' :: 'x' :: '1' :: '2' :: '3' :: '4' :: '5' :: '6' :: '7' :: '8' :: '9' :: 'a' ::
          'b' :: ['c']).drop (14 - 4) :=
  (formatAddress_spec
      ('0' :: 'x' :: '1' :: '2' :: '3' :: '4' :: '5' :: '6' :: '7' :: '8' :: '9' :: 'a' ::
        'b' :: ['c']) 6 4).2.2 (by decide) (by decide)

/-- Embedding of `padStart(decimals, '0')`. -/
def padStartZero (w : ℕ) (s : JStr) : JStr := List.replicate (w - s.length) '0' ++ s

/-- Embedding of `replace(/0+$/, '')`: strip trailing zero characters. -/
def trimTrailingZeros (s : JStr) : JStr := (s.reverse.dropWhile (fun c => c == '0')).reverse

/-- Embedding of `formatTokenAmount`.  For `decimals ≤ 15` the source's
`BigInt(10 ** decimals)` is the exact power `10 ^ decimals`, which is what
the embedding uses. -/
def formatTokenAmount (value decimals : ℕ) : JStr :=
  let divisor := 10 ^ decimals
  let quotient := value / divisor
  let remainder := value % divisor
  if remainder = 0 then natToJStr quotient
  else natToJStr quotient ++ '.' :: trimTrailingZeros (padStartZero decimals (natToJStr remainder))

/-- The part of a rendered amount before the decimal point. -/
def intPartStr (s : JStr) : JStr := s.takeWhile (fun c => c != '.')

/-- The part of a rendered amount after the decimal point. -/
def fracPartStr (s : JStr) : JStr := (s.dropWhile (fun c => c != '.')).drop 1

/-- The rational number a rendered amount `int[.frac]` denotes. -/
def decimalVal (s : JStr) : ℚ :=
  (parseDigitsBE (intPartStr s) : ℚ) +
    (parseDigitsBE (fracPartStr s) : ℚ) / (10 : ℚ) ^ (fracPartStr s).length

theorem parseDigitsBE_replicate_zero (k : ℕ) (s : JStr) :
    parseDigitsBE (List.replicate k '0' ++ s) = parseDigitsBE s := by
  induction k with
  | zero => rfl
  | succ k ih =>
    rw [List.replicate_succ, List.cons_append, parseDigitsBE, List.foldl_cons]
    exact ih

theorem ofDigits10_replicate_zero (k : ℕ) : ofDigits10 (List.replicate k 0) = 0 := by
  induction k with
  | zero => rfl
  | succ k ih =>
    rw [List.replicate_succ]
    simp only [ofDigits10, ih]

theorem ofDigits10_append_replicate_zero (l : List ℕ) (k : ℕ) :
    ofDigits10 (l ++ List.replicate k 0) = ofDigits10 l := by
  induction l with
  | nil => simpa using ofDigits10_replicate_zero k
  | cons d ds ih => simp only [List.cons_append, ofDigits10, List.append_eq, ih]

theorem ofDigits10_dropWhile_zero (l : List ℕ) :
    ofDigits10 l = ofDigits10 (l.dropWhile (fun x => x == 0)) *
      10 ^ (l.length - (l.dropWhile (fun x => x == 0)).length) := by
  induction l with
  | nil => rfl
  | cons d ds ih =>
    rw [List.dropWhile_cons]
    by_cases h : d = 0
    · subst h
      rw [if_pos (by decide)]
      have hle : (ds.dropWhile (fun x => x == 0)).length ≤ ds.length :=
        (List.dropWhile_sublist _).length_le
      simp only [ofDigits10, List.length_cons]
      rw [ih, Nat.zero_add]
      rw [show ds.length + 1 - (ds.dropWhile (fun x => x == 0)).length =
        (ds.length - (ds.dropWhile (fun x => x == 0)).length) + 1 from by omega]
      ring
    · rw [if_neg (by simpa using h)]
      simp

theorem dropWhile_head_false {α : Type} (p : α → Bool) :
    ∀ (l : List α) (y : α) (ys : List α), l.dropWhile p = y :: ys → p y = false := by
  intro l
  induction l with
  | nil => intro y ys h; simp at h
  | cons a tl ih =>
    intro y ys h
    rw [List.dropWhile_cons] at h
    by_cases ha : p a = true
    · rw [if_pos ha] at h
      exact ih y ys h
    · rw [if_neg ha] at h
      cases h
      simpa using ha

theorem dropWhile_congr_mem {α : Type} (p q : α → Bool) :
    ∀ l : List α, (∀ x ∈ l, p x = q x) → l.dropWhile p = l.dropWhile q := by
  intro l
  induction l with
  | nil => intro _; rfl
  | cons a tl ih =>
    intro h
    rw [List.dropWhile_cons, List.dropWhile_cons, h a (List.mem_cons_self a tl),
      ih (fun x hx => h x (List.mem_cons_of_mem a hx))]

theorem takeWhile_append_stop (p : Char → Bool) (ip : JStr) (c : Char) (fp : JStr)
    (hip : ∀ x ∈ ip, p x = true) (hc : p c = false) :
    (ip ++ c :: fp).takeWhile p = ip := by
  induction ip with
  | nil =>
    rw [List.nil_append, List.takeWhile_cons, if_neg (by simp [hc])]
  | cons a tl ih =>
    rw [List.cons_append, List.takeWhile_cons, if_pos (hip a (List.mem_cons_self a tl)),
      ih (fun x hx => hip x (List.mem_cons_of_mem a hx))]

theorem dropWhile_append_stop (p : Char → Bool) (ip : JStr) (c : Char) (fp : JStr)
    (hip : ∀ x ∈ ip, p x = true) (hc : p c = false) :
    (ip ++ c :: fp).dropWhile p = c :: fp := by
  induction ip with
  | nil =>
    rw [List.nil_append, List.dropWhile_cons, if_neg (by simp [hc])]
  | cons a tl ih =>
    rw [List.cons_append, List.dropWhile_cons, if_pos (hip a (List.mem_cons_self a tl)),
      ih (fun x hx => hip x (List.mem_cons_of_mem a hx))]

theorem takeWhile_all (p : Char → Bool) :
    ∀ l : JStr, (∀ x ∈ l, p x = true) → l.takeWhile p = l := by
  intro l
  induction l with
  | nil => intro _; rfl
  | cons a tl ih =>
    intro h
    rw [List.takeWhile_cons, if_pos (h a (List.mem_cons_self a tl)),
      ih (fun x hx => h x (List.mem_cons_of_mem a hx))]

theorem dropWhile_all (p : Char → Bool) :
    ∀ l : JStr, (∀ x ∈ l, p x = true) → l.dropWhile p = [] := by
  intro l
  induction l with
  | nil => intro _; rfl
  | cons a tl ih =>
    intro h
    rw [List.dropWhile_cons, if_pos (h a (List.mem_cons_self a tl)),
      ih (fun x hx => h x (List.mem_cons_of_mem a hx))]

theorem decimalVal_no_dot (s : JStr) (h : '.' ∉ s) : decimalVal s = parseDigitsBE s := by
  have hall : ∀ x ∈ s, (x != '.') = true :=
    fun x hx => bne_iff_ne.mpr (fun he => h (he ▸ hx))
  have h1 : intPartStr s = s := takeWhile_all _ s hall
  have h2 : fracPartStr s = [] := by
    rw [fracPartStr, dropWhile_all _ s hall]
    rfl
  rw [decimalVal, h1, h2]
  simp [parseDigitsBE]

theorem decimalVal_split (ip fp : JStr) (hip : '.' ∉ ip) :
    decimalVal (ip ++ '.' :: fp) =
      (parseDigitsBE ip : ℚ) + (parseDigitsBE fp : ℚ) / (10 : ℚ) ^ fp.length := by
  have hall : ∀ x ∈ ip, (x != '.') = true :=
    fun x hx => bne_iff_ne.mpr (fun he => hip (he ▸ hx))
  have h1 : intPartStr (ip ++ '.' :: fp) = ip :=
    takeWhile_append_stop _ ip '.' fp hall (by decide)
  have h2 : fracPartStr (ip ++ '.' :: fp) = fp := by
    rw [fracPartStr, dropWhile_append_stop _ ip '.' fp hall (by decide)]
    rfl
  rw [decimalVal, h1, h2]

theorem dropWhile_zero_map_digitChar :
    ∀ L : List ℕ, (∀ x ∈ L, x < 10) →
      (L.map digitChar).dropWhile (fun c => c == '0') =
        (L.dropWhile (fun x => x == 0)).map digitChar := by
  intro L
  induction L with
  | nil => intro _; rfl
  | cons a tl ih =>
    intro h
    rw [List.map_cons, List.dropWhile_cons, List.dropWhile_cons]
    have ha := h a (List.mem_cons_self a tl)
    by_cases h0 : a = 0
    · subst h0
      rw [if_pos (by decide), if_pos (by decide), ih (fun x hx => h x (List.mem_cons_of_mem _ hx))]
    · have hne : digitChar a ≠ '0' := fun he => h0 ((digitChar_eq_zero_iff a ha).mp he)
      rw [if_neg (by simpa using hne), if_neg (by simpa using h0), List.map_cons]

/-- The structure of `trimTrailingZeros (padStart(decimals, '0'))` applied
to the decimal rendering of a nonzero remainder: it is the big-endian
rendering of a little-endian digit list `l₀` with no leading zero, whose
value scaled by the dropped power of ten is the remainder. -/
theorem trimTrailing_pad_spec (r d : ℕ) (hr0 : r ≠ 0) (hrlt : r < 10 ^ d) :
    ∃ l₀ : List ℕ,
      trimTrailingZeros (padStartZero d (natToJStr r)) = (l₀.map digitChar).reverse ∧
        (∀ x ∈ l₀, x < 10) ∧ l₀ ≠ [] ∧
        (∀ y ys, l₀ = y :: ys → y ≠ 0) ∧
        l₀.length ≤ d ∧
        ofDigits10 l₀ * 10 ^ (d - l₀.length) = r := by
  have hlen_le : (natDigits r).length ≤ d := natDigits_length_le d r hrlt
  set ds := natDigits r with hds
  set L := ds ++ List.replicate (d - ds.length) 0 with hL
  have hL10 : ∀ x ∈ L, x < 10 := by
    intro x hx
    rcases List.mem_append.mp hx with h1 | h2
    · exact natDigits_lt_ten r x h1
    · rw [List.eq_of_mem_replicate h2]
      omega
  have hLlen : L.length = d := by
    rw [hL, List.length_append, List.length_replicate]
    omega
  have hLval : ofDigits10 L = r := by
    rw [hL, ofDigits10_append_replicate_zero, hds, ofDigits10_natDigits]
  have hnat : natToJStr r = (ds.reverse).map digitChar := by
    rw [natToJStr, if_neg hr0]
  have hlen_nat : (natToJStr r).length = ds.length := by
    rw [hnat, List.length_map, List.length_reverse]
  have hpadrev : (padStartZero d (natToJStr r)).reverse = L.map digitChar := by
    rw [padStartZero, hlen_nat, List.reverse_append, List.reverse_replicate, hnat,
      List.map_reverse, List.reverse_reverse, hL, List.map_append, List.map_replicate]
    congr 1
  set l₀ := L.dropWhile (fun x => x == 0) with hl₀
  have hsub : l₀.Sublist L := List.dropWhile_sublist _
  have hvals := ofDigits10_dropWhile_zero L
  rw [← hl₀, hLlen] at hvals
  have htrim : trimTrailingZeros (padStartZero d (natToJStr r)) = (l₀.map digitChar).reverse := by
    rw [trimTrailingZeros, hpadrev, dropWhile_zero_map_digitChar L hL10, hl₀]
  refine ⟨l₀, htrim, fun x hx => hL10 x (hsub.subset hx), ?_, ?_, ?_, ?_⟩
  · intro h0
    rw [h0] at hvals
    simp only [ofDigits10, List.length_nil, Nat.zero_mul] at hvals
    exact hr0 (hvals ▸ hLval).symm
  · intro y ys heq
    have := dropWhile_head_false (fun x => x == 0) L y ys (hl₀ ▸ heq)
    simpa using this
  · calc l₀.length ≤ L.length := hsub.length_le
    _ = d := hLlen
  · rw [← hvals]
    exact hLval

/-- C10: for `decimals ≤ 15` (where `10 ** decimals` is float-exact in the
source) the rendered amount, read back as a decimal number and scaled by
`10 ^ decimals`, is exactly the input value; a divisible value renders with
no decimal point, and otherwise the fractional part is nonempty and carries
no trailing zero. -/
theorem formatTokenAmount_roundTrip (v d : ℕ) (_hd : d ≤ 15) :
    decimalVal (formatTokenAmount v d) * (10 : ℚ) ^ d = (v : ℚ) ∧
      (10 ^ d ∣ v → '.' ∉ formatTokenAmount v d) ∧
      (¬ 10 ^ d ∣ v →
        ∃ ip fp : JStr, formatTokenAmount v d = ip ++ '.' :: fp ∧ '.' ∉ ip ∧ '.' ∉ fp ∧
          fp ≠ [] ∧ fp.getLast? ≠ some '0') := by
  have hpow : (0 : ℕ) < 10 ^ d := pow_pos (by norm_num) d
  by_cases hr : v % 10 ^ d = 0
  · have hfmt : formatTokenAmount v d = natToJStr (v / 10 ^ d) := by
      simp only [formatTokenAmount]
      rw [if_pos hr]
    have hdvd : 10 ^ d ∣ v := Nat.dvd_of_mod_eq_zero hr
    refine ⟨?_, ?_, ?_⟩
    · rw [hfmt, decimalVal_no_dot _ (dot_not_mem_natToJStr _), parseDigitsBE_natToJStr]
      have hq : v / 10 ^ d * 10 ^ d = v := Nat.div_mul_cancel hdvd
      exact_mod_cast congrArg (Nat.cast : ℕ → ℚ) hq
    · intro _
      rw [hfmt]
      exact dot_not_mem_natToJStr _
    · intro hnd
      exact absurd hdvd hnd
  · have hrlt : v % 10 ^ d < 10 ^ d := Nat.mod_lt _ hpow
    obtain ⟨l₀, htrim, hl10, hne, hhead, hlen, hval⟩ :=
      trimTrailing_pad_spec (v % 10 ^ d) d hr hrlt
    have hfmt : formatTokenAmount v d =
        natToJStr (v / 10 ^ d) ++ '.' :: (l₀.map digitChar).reverse := by
      simp only [formatTokenAmount]
      rw [if_neg hr, htrim]
    have hfp_nodot : '.' ∉ (l₀.map digitChar).reverse := by
      intro hmem
      rw [List.mem_reverse] at hmem
      obtain ⟨x, hx, hxc⟩ := List.mem_map.mp hmem
      exact digitChar_ne_dot x (hl10 x hx) hxc
    have hparse_fp : parseDigitsBE ((l₀.map digitChar).reverse) = ofDigits10 l₀ :=
      parseDigitsBE_rev_map l₀ hl10
    have hfp_len : ((l₀.map digitChar).reverse).length = l₀.length := by
      rw [List.length_reverse, List.length_map]
    refine ⟨?_, ?_, ?_⟩
    · rw [hfmt, decimalVal_split _ _ (dot_not_mem_natToJStr _), parseDigitsBE_natToJStr,
        hparse_fp, hfp_len]
      have h10k : (10 : ℚ) ^ l₀.length ≠ 0 := pow_ne_zero _ (by norm_num)
      have hsplitp : (10 : ℚ) ^ d = 10 ^ (d - l₀.length) * 10 ^ l₀.length := by
        rw [← pow_add]
        congr 1
        omega
      have hPr : (ofDigits10 l₀ : ℚ) * 10 ^ (d - l₀.length) = ((v % 10 ^ d : ℕ) : ℚ) := by
        exact_mod_cast congrArg (Nat.cast : ℕ → ℚ) hval
      have hqv : v / 10 ^ d * 10 ^ d + v % 10 ^ d = v := by
        rw [Nat.mul_comm]
        exact Nat.div_add_mod v (10 ^ d)
      have hexp : ((v / 10 ^ d : ℕ) : ℚ) * 10 ^ d + ((v % 10 ^ d : ℕ) : ℚ) = (v : ℚ) := by
        exact_mod_cast congrArg (Nat.cast : ℕ → ℚ) hqv
      have hfrac : ((ofDigits10 l₀ : ℚ) / (10 : ℚ) ^ l₀.length) * 10 ^ d =
          (ofDigits10 l₀ : ℚ) * 10 ^ (d - l₀.length) := by
        rw [div_mul_eq_mul_div, hsplitp, ← mul_assoc, mul_div_assoc, div_self h10k, mul_one]
      rw [add_mul, hfrac, hPr]
      exact hexp
    · intro hdvd
      exact absurd (Nat.mod_eq_zero_of_dvd hdvd) hr
    · intro _
      refine ⟨natToJStr (v / 10 ^ d), (l₀.map digitChar).reverse, hfmt,
        dot_not_mem_natToJStr _, hfp_nodot, ?_, ?_⟩
      · intro h0
        apply hne
        have hmap : l₀.map digitChar = [] := by
          have := congrArg List.reverse h0
          simpa using this
        exact List.map_eq_nil_iff.mp hmap
      · cases hcase : l₀ with
        | nil => exact absurd hcase hne
        | cons y ys =>
          have hy0 : y ≠ 0 := hhead y ys hcase
          have hy10 : y < 10 := hl10 y (hcase ▸ List.mem_cons_self y ys)
          rw [List.getLast?_reverse, List.map_cons, List.head?_cons]
          intro hsome
          exact hy0 ((digitChar_eq_zero_iff y hy10).mp (Option.some.inj hsome))

/-- Witness: 1234500 with 4 decimals renders so that reading it back times
`10 ^ 4` recovers 1234500, with a nonempty fraction and no trailing zero. -/
theorem formatTokenAmount_roundTrip_witness :
    decimalVal (formatTokenAmount 1234500 4) * (10 : ℚ) ^ 4 = (1234500 : ℚ) ∧
      ∃ ip fp : JStr, formatTokenAmount 1234500 4 = ip ++ '.' :: fp ∧ '.' ∉ ip ∧ '.' ∉ fp ∧
        fp ≠ [] ∧ fp.getLast? ≠ some '0' := by
  have h := formatTokenAmount_roundTrip 1234500 4 (by norm_num)
  exact ⟨h.1, h.2.2 (by decide)⟩

end Web3
